import Mathlib

/-!
Shallow embedding of the `fil-hello-world-actor` bounty-escrow actor
(`src/lib.rs`) and proofs about its specification.

Modelling conventions:
* Byte strings are `List Nat` (`Bytes`); arbitrary-precision token amounts are
  `Nat` (the spec's "non-negative arbitrary-precision integer").
* Content addressing is ideal (collision-free): the ContentID of a block is the
  block's canonical byte encoding itself, so equal content gives equal id and
  distinct content gives distinct ids.
* The FVM host (`fvm_sdk`) is a collaborator: the current-root pointer and the
  block store form a `World`; `caller`/`value_received` form a `Message`;
  outgoing transfers are returned as data rather than performed.
* Components of the system that live outside `src/lib.rs` (the HAMT crate, the
  CBOR encoding) are modelled from the spec; each such definition carries a
  `Modelled from the spec:` doc comment.
-/

/-- Byte strings: keys, encoded blocks, raw cid bytes. -/
abbrev Bytes := List Nat

/-- FVM address. `Address::new_id` gives the ID form; all keyed protocols
(secp256k1, actor, BLS...) are collapsed into the `key` constructor carrying
their raw payload bytes, which is all the actor code distinguishes. -/
inductive Address where
  | id (actorId : Nat)
  | key (bytes : Bytes)
  deriving DecidableEq

/-- The value stored against a bounty key (`BountyValue` in lib.rs). -/
structure BountyValue where
  amount : Nat
  deriving DecidableEq

/-- Composite identity of one bounty slot (`BountyKey` in lib.rs). -/
structure BountyKey where
  piece_cid : Bytes
  address : Address
  deriving DecidableEq

/-- Parameters of `post_bounty` and `lookup_bounty` (`PostBountyParams`). -/
structure PostBountyParams where
  piece_cid : Bytes
  address : Address
  deriving DecidableEq

/-- Parameters of `award_bounty` (`AwardBountyParams`). -/
structure AwardBountyParams where
  piece_cid : Bytes
  address : Address
  payout_address : Address
  deriving DecidableEq

/-- Entry returned by `list_bounties` (`PostedBounty`). -/
structure PostedBounty where
  piece_cid : Bytes
  address : Address
  amount : Nat
  deriving DecidableEq

/-- Strict lexicographic order on byte strings, used as the canonical key
order of the modelled Persistent Index. -/
def bytesLt : Bytes → Bytes → Bool
  | [], [] => false
  | [], _ :: _ => true
  | _ :: _, [] => false
  | a :: as, b :: bs => a < b || (a == b && bytesLt as bs)

theorem bytesLt_irrefl (l : Bytes) : bytesLt l l = false := by
  induction l with
  | nil => rfl
  | cons a as ih => simp [bytesLt, ih]

theorem bytesLt_asymm : ∀ {a b : Bytes}, bytesLt a b = true → bytesLt b a = false
  | [], [], h => by simp [bytesLt] at h
  | [], _ :: _, _ => rfl
  | _ :: _, [], h => by simp [bytesLt] at h
  | a :: as, b :: bs, h => by
    simp only [bytesLt, Bool.or_eq_true, Bool.and_eq_true, beq_iff_eq, decide_eq_true_eq] at h
    simp only [bytesLt, Bool.or_eq_false_iff, Bool.and_eq_false_iff, beq_eq_false_iff_ne, decide_eq_true_eq, decide_eq_false_iff_not]
    rcases h with h | ⟨rfl, h⟩
    · constructor
      · omega
      · left
        omega
    · exact ⟨by omega, Or.inr (bytesLt_asymm h)⟩

theorem bytesLt_trans : ∀ {a b c : Bytes},
    bytesLt a b = true → bytesLt b c = true → bytesLt a c = true
  | [], _, _ :: _, _, _ => rfl
  | [], _ :: _, [], _, h2 => by simp [bytesLt] at h2
  | [], [], _, h1, _ => by simp [bytesLt] at h1
  | _ :: _, [], _, h1, _ => by simp [bytesLt] at h1
  | _ :: _, _ :: _, [], _, h2 => by simp [bytesLt] at h2
  | a :: as, b :: bs, c :: cs, h1, h2 => by
    simp only [bytesLt, Bool.or_eq_true, Bool.and_eq_true, beq_iff_eq, decide_eq_true_eq] at h1 h2 ⊢
    rcases h1 with h1 | ⟨rfl, h1⟩
    · rcases h2 with h2 | ⟨rfl, h2⟩
      · left
        omega
      · left
        exact h1
    · rcases h2 with h2 | ⟨rfl, h2⟩
      · left
        exact h2
      · exact Or.inr ⟨rfl, bytesLt_trans h1 h2⟩

theorem bytesLt_total : ∀ {a b : Bytes},
    a ≠ b → bytesLt a b = true ∨ bytesLt b a = true
  | [], [], h => absurd rfl h
  | [], _ :: _, _ => Or.inl rfl
  | _ :: _, [], _ => Or.inr rfl
  | a :: as, b :: bs, h => by
    simp only [bytesLt, Bool.or_eq_true, Bool.and_eq_true, beq_iff_eq, decide_eq_true_eq]
    rcases Nat.lt_trichotomy a b with hab | rfl | hab
    · exact Or.inl (Or.inl (by simpa using hab))
    · have : as ≠ bs := fun hh => h (by rw [hh])
      rcases bytesLt_total this with h1 | h1
      · exact Or.inl (Or.inr ⟨rfl, h1⟩)
      · exact Or.inr (Or.inr ⟨rfl, h1⟩)
    · exact Or.inr (Or.inl (by simpa using hab))

theorem bytesLt_ne {a b : Bytes} (h : bytesLt a b = true) : a ≠ b := by
  rintro rfl
  rw [bytesLt_irrefl] at h
  exact Bool.false_ne_true h

/-- Read exactly `n` bytes off the front of a byte string. -/
def readN : Nat → Bytes → Option (Bytes × Bytes)
  | 0, l => some ([], l)
  | _ + 1, [] => none
  | n + 1, a :: l => (readN n l).map fun p => (a :: p.1, p.2)

theorem readN_append (l r : Bytes) : readN l.length (l ++ r) = some (l, r) := by
  induction l with
  | nil => rfl
  | cons a as ih => simp [readN, ih]

theorem readN_eq {n : Nat} {l p q : Bytes} (h : readN n l = some (p, q)) :
    l = p ++ q ∧ p.length = n := by
  induction n generalizing l p q with
  | zero =>
    simp only [readN, Option.some.injEq, Prod.mk.injEq] at h
    obtain ⟨rfl, rfl⟩ := h
    simp
  | succ n ih =>
    match l with
    | [] => simp [readN] at h
    | a :: l =>
      simp only [readN, Option.map_eq_some'] at h
      obtain ⟨⟨p1, q1⟩, hp, heq⟩ := h
      cases heq
      obtain ⟨rfl, hl⟩ := ih hp
      exact ⟨by simp, by simp [hl]⟩

/-- Modelled from the spec: canonical, self-delimiting byte encoding of an
address (the `fvm_shared` address encoding is outside src/). A tag byte
distinguishes the ID form from the keyed form; keyed payloads are
length-prefixed. -/
def encodeAddress : Address → Bytes
  | .id n => [0, n]
  | .key bs => 1 :: bs.length :: bs

/-- Decode an address off the front of a byte string, returning the rest. -/
def decodeAddress : Bytes → Option (Address × Bytes)
  | 0 :: n :: rest => some (.id n, rest)
  | 1 :: len :: rest => (readN len rest).map fun p => (.key p.1, p.2)
  | _ => none

theorem decodeAddress_encode (a : Address) (r : Bytes) :
    decodeAddress (encodeAddress a ++ r) = some (a, r) := by
  cases a with
  | id n => rfl
  | key bs => simp [encodeAddress, decodeAddress, readN_append]

theorem decodeAddress_eq {l : Bytes} {a : Address} {r : Bytes}
    (h : decodeAddress l = some (a, r)) : l = encodeAddress a ++ r := by
  match l, h with
  | 0 :: n :: rest, h =>
    simp only [decodeAddress, Option.some.injEq, Prod.mk.injEq] at h
    obtain ⟨rfl, rfl⟩ := h
    rfl
  | 1 :: len :: rest, h =>
    simp only [decodeAddress, Option.map_eq_some'] at h
    obtain ⟨⟨p1, q1⟩, hp, heq⟩ := h
    cases heq
    obtain ⟨rfl, hlen⟩ := readN_eq hp
    simp [encodeAddress, hlen]

/-- Modelled from the spec: the canonical serialization of a `BountyKey`
(`RawBytes::serialize(&key)` in lib.rs uses the CBOR encoding, which is
outside src/). The piece cid is length-prefixed and followed by the encoded
address; the spec requires two keys to be the same slot iff their encodings
are byte-identical, which holds because this encoding is injective. -/
def encodeKey (k : BountyKey) : Bytes :=
  k.piece_cid.length :: k.piece_cid ++ encodeAddress k.address

/-- Decode the canonical serialization of a `BountyKey` (used by
`list_bounties` to recover the original key fields). -/
def decodeKey (l : Bytes) : Option BountyKey :=
  match l with
  | len :: rest =>
    match readN len rest with
    | some (c, rest2) =>
      match decodeAddress rest2 with
      | some (a, []) => some ⟨c, a⟩
      | _ => none
    | none => none
  | [] => none

theorem decodeKey_encode (k : BountyKey) : decodeKey (encodeKey k) = some k := by
  obtain ⟨c, a⟩ := k
  simp only [encodeKey, decodeKey]
  rw [List.cons_append]
  simp only [List.cons.injEq]
  have h1 : readN c.length (c ++ encodeAddress a) = some (c, encodeAddress a) :=
    readN_append c (encodeAddress a)
  simp only [h1]
  have h2 : decodeAddress (encodeAddress a ++ []) = some (a, []) := decodeAddress_encode a []
  rw [List.append_nil] at h2
  simp [h2]

theorem encodeKey_inj {k1 k2 : BountyKey} (h : encodeKey k1 = encodeKey k2) : k1 = k2 := by
  have h1 := decodeKey_encode k1
  rw [h, decodeKey_encode k2] at h1
  exact (Option.some.injEq .. ▸ h1).symm

theorem decodeKey_eq {l : Bytes} {k : BountyKey} (h : decodeKey l = some k) :
    l = encodeKey k := by
  cases l with
  | nil => simp [decodeKey] at h
  | cons len rest =>
    simp only [decodeKey] at h
    rcases hr : readN len rest with _ | ⟨c, rest2⟩
    · rw [hr] at h
      simp at h
    · simp only [hr] at h
      rcases ha : decodeAddress rest2 with _ | ⟨a, rest3⟩
      · simp only [ha] at h
        exact absurd h (by simp)
      · simp only [ha] at h
        cases rest3 with
        | cons x xs => simp at h
        | nil =>
          simp only [Option.some.injEq] at h
          subst h
          obtain ⟨rfl, hlen⟩ := readN_eq hr
          have h2 := decodeAddress_eq ha
          rw [List.append_nil] at h2
          subst h2
          simp [encodeKey, hlen]

/-- Modelled from the spec: canonical encoding of one index entry
(length-prefixed key bytes followed by the amount). -/
def encodeEntry (e : Bytes × BountyValue) : Bytes :=
  e.1.length :: e.1 ++ [e.2.amount]

/-- Decode one index entry off the front of a byte string. -/
def decodeEntry (l : Bytes) : Option ((Bytes × BountyValue) × Bytes) :=
  match l with
  | len :: rest =>
    match readN len rest with
    | some (k, a :: rest2) => some ((k, ⟨a⟩), rest2)
    | _ => none
  | [] => none

theorem decodeEntry_encode (e : Bytes × BountyValue) (r : Bytes) :
    decodeEntry (encodeEntry e ++ r) = some (e, r) := by
  obtain ⟨k, ⟨a⟩⟩ := e
  have h1 : encodeEntry (k, ⟨a⟩) ++ r = k.length :: (k ++ ([a] ++ r)) := by
    simp [encodeEntry]
  rw [h1]
  simp only [decodeEntry]
  have h2 : readN k.length (k ++ (a :: r)) = some (k, a :: r) := readN_append k (a :: r)
  simp [h2]

/-- Modelled from the spec: concatenated canonical encodings of a list of
index entries. -/
def encodeEntryList : List (Bytes × BountyValue) → Bytes
  | [] => []
  | e :: es => encodeEntry e ++ encodeEntryList es

/-- Decode exactly `n` index entries off the front of a byte string. -/
def decodeEntryList : Nat → Bytes → Option (List (Bytes × BountyValue) × Bytes)
  | 0, l => some ([], l)
  | n + 1, l =>
    match decodeEntry l with
    | some (e, rest) => (decodeEntryList n rest).map fun p => (e :: p.1, p.2)
    | none => none

theorem decodeEntryList_encode (es : List (Bytes × BountyValue)) (r : Bytes) :
    decodeEntryList es.length (encodeEntryList es ++ r) = some (es, r) := by
  induction es generalizing r with
  | nil => rfl
  | cons e es ih =>
    simp only [List.length_cons, encodeEntryList, decodeEntryList]
    rw [List.append_assoc]
    simp [decodeEntry_encode, ih]

/-- Modelled from the spec: canonical tuple encoding of the state record
(`Serialize_tuple` on `State` in lib.rs serializes
`(trusted_address, bounties_map)`; the CBOR details are outside src/). The
bounty-index root cid is, in this ideal-hash model, the canonical entry list
itself, so it is encoded as a count-prefixed entry list. -/
def encodeState (trusted_address : Address)
    (bounties_map : List (Bytes × BountyValue)) : Bytes :=
  encodeAddress trusted_address ++ bounties_map.length :: encodeEntryList bounties_map

/-- Decode a state record from a whole block (all bytes must be consumed). -/
def decodeState (l : Bytes) : Option (Address × List (Bytes × BountyValue)) :=
  match decodeAddress l with
  | some (a, n :: rest) =>
    match decodeEntryList n rest with
    | some (es, []) => some (a, es)
    | _ => none
  | _ => none

theorem decodeState_encode (a : Address) (es : List (Bytes × BountyValue)) :
    decodeState (encodeState a es) = some (a, es) := by
  simp only [encodeState, decodeState, decodeAddress_encode]
  have h1 : decodeEntryList es.length (encodeEntryList es ++ []) = some (es, []) :=
    decodeEntryList_encode es []
  rw [List.append_nil] at h1
  simp [h1]

/-- Modelled from the spec: the Persistent Index. The `fvm_ipld_hamt` crate is
outside src/; the spec requires a map from key bytes to values whose flushed
root ContentID is a pure deterministic function of the (key, value) set held,
independent of operation history. It is modelled as an association list kept
strictly sorted by `bytesLt` on the key bytes (the canonical form); `flush`
returns that canonical form, which in the ideal-hash model is the root
ContentID itself. -/
structure Hamt where
  entries : List (Bytes × BountyValue)
  deriving DecidableEq

/-- Key order lifted to index entries. -/
def entLt (a b : Bytes × BountyValue) : Prop := bytesLt a.1 b.1 = true

instance (a b : Bytes × BountyValue) : Decidable (entLt a b) :=
  inferInstanceAs (Decidable (bytesLt a.1 b.1 = true))

instance : IsTrans (Bytes × BountyValue) entLt := ⟨fun _ _ _ => bytesLt_trans⟩

/-- Computable canonical-form check: consecutive keys strictly increase. -/
def sortedEntriesB : List (Bytes × BountyValue) → Bool
  | [] => true
  | [_] => true
  | a :: b :: rest => bytesLt a.1 b.1 && sortedEntriesB (b :: rest)

/-- Canonical-form invariant of the modelled index: entries strictly sorted by
key bytes. -/
def sortedEntries (l : List (Bytes × BountyValue)) : Prop := sortedEntriesB l = true

instance (l : List (Bytes × BountyValue)) : Decidable (sortedEntries l) :=
  inferInstanceAs (Decidable (sortedEntriesB l = true))

theorem sortedEntriesB_iff_chain : ∀ {l : List (Bytes × BountyValue)},
    sortedEntriesB l = true ↔ l.Chain' entLt := by
  intro l
  induction l with
  | nil => simp [sortedEntriesB]
  | cons a l ih =>
    cases l with
    | nil => simp [sortedEntriesB]
    | cons b l2 =>
      rw [List.chain'_cons, ← ih]
      show (bytesLt a.1 b.1 && sortedEntriesB (b :: l2)) = true ↔
        entLt a b ∧ sortedEntriesB (b :: l2) = true
      rw [Bool.and_eq_true]
      exact Iff.rfl

theorem sortedEntries_iff_pairwise {l : List (Bytes × BountyValue)} :
    sortedEntries l ↔ l.Pairwise entLt :=
  sortedEntriesB_iff_chain.trans List.chain'_iff_pairwise

/-- `Hamt::new(Blockstore)`: the empty index. -/
def Hamt.new : Hamt := ⟨[]⟩

/-- `Hamt::load(&cid, Blockstore)`: in the ideal-hash model the root cid of a
flushed index is its canonical entry list, so loading just wraps it. -/
def Hamt.load (root : List (Bytes × BountyValue)) : Hamt := ⟨root⟩

/-- Point lookup on the entry list (`bounties.get(&key)`). -/
def getEntries : List (Bytes × BountyValue) → Bytes → Option BountyValue
  | [], _ => none
  | (k1, v1) :: rest, k => if k = k1 then some v1 else getEntries rest k

/-- Upsert on the canonical entry list, inserting at the sorted position
(`bounties.set(key, value)`). -/
def setEntries : List (Bytes × BountyValue) → Bytes → BountyValue →
    List (Bytes × BountyValue)
  | [], k, v => [(k, v)]
  | (k1, v1) :: rest, k, v =>
    if k = k1 then (k, v) :: rest
    else if bytesLt k k1 then (k, v) :: (k1, v1) :: rest
    else (k1, v1) :: setEntries rest k v

/-- Removal from the entry list (`bounties.delete(&key)`); no-op if absent. -/
def deleteEntries : List (Bytes × BountyValue) → Bytes → List (Bytes × BountyValue)
  | [], _ => []
  | (k1, v1) :: rest, k => if k = k1 then rest else (k1, v1) :: deleteEntries rest k

def Hamt.get (h : Hamt) (k : Bytes) : Option BountyValue := getEntries h.entries k

def Hamt.set (h : Hamt) (k : Bytes) (v : BountyValue) : Hamt := ⟨setEntries h.entries k v⟩

def Hamt.delete (h : Hamt) (k : Bytes) : Hamt := ⟨deleteEntries h.entries k⟩

/-- `bounties.flush()`: persists the index and returns its root ContentID; in
the ideal-hash model the root is the canonical entry list. -/
def Hamt.flush (h : Hamt) : List (Bytes × BountyValue) := h.entries

theorem getEntries_setEntries_self (l : List (Bytes × BountyValue)) (k : Bytes)
    (v : BountyValue) : getEntries (setEntries l k v) k = some v := by
  induction l with
  | nil => simp [setEntries, getEntries]
  | cons e rest ih =>
    obtain ⟨k1, v1⟩ := e
    by_cases hk : k = k1
    · simp [setEntries, hk, getEntries]
    · by_cases hlt : bytesLt k k1
      · simp [setEntries, hk, hlt, getEntries]
      · simp [setEntries, hk, hlt, getEntries, ih]

theorem getEntries_setEntries_ne (l : List (Bytes × BountyValue)) (k k2 : Bytes)
    (v : BountyValue) (hne : k2 ≠ k) :
    getEntries (setEntries l k v) k2 = getEntries l k2 := by
  induction l with
  | nil => simp [setEntries, getEntries, hne]
  | cons e rest ih =>
    obtain ⟨k1, v1⟩ := e
    by_cases hk : k = k1
    · subst hk
      simp [setEntries, getEntries, hne]
    · by_cases hlt : bytesLt k k1
      · simp [setEntries, hk, hlt, getEntries, hne]
      · by_cases hk2 : k2 = k1
        · simp [setEntries, hk, hlt, getEntries, hk2]
        · simp [setEntries, hk, hlt, getEntries, hk2, ih]

theorem getEntries_deleteEntries_ne (l : List (Bytes × BountyValue)) (k k2 : Bytes)
    (hne : k2 ≠ k) : getEntries (deleteEntries l k) k2 = getEntries l k2 := by
  induction l with
  | nil => simp [deleteEntries]
  | cons e rest ih =>
    obtain ⟨k1, v1⟩ := e
    by_cases hk : k = k1
    · subst hk
      simp [deleteEntries, getEntries, hne]
    · by_cases hk2 : k2 = k1
      · simp [deleteEntries, hk, getEntries, hk2]
      · simp [deleteEntries, hk, getEntries, hk2, ih]

theorem getEntries_eq_none {l : List (Bytes × BountyValue)} {k : Bytes}
    (h : ∀ e ∈ l, e.1 ≠ k) : getEntries l k = none := by
  induction l with
  | nil => rfl
  | cons e rest ih =>
    obtain ⟨k1, v1⟩ := e
    have h1 : k ≠ k1 := fun hh => h (k1, v1) (by simp) hh.symm
    simp only [getEntries, if_neg h1]
    exact ih fun e he => h e (by simp [he])

theorem getEntries_deleteEntries_self {l : List (Bytes × BountyValue)} {k : Bytes}
    (hs : sortedEntries l) : getEntries (deleteEntries l k) k = none := by
  rw [sortedEntries_iff_pairwise] at hs
  induction l with
  | nil => rfl
  | cons e rest ih =>
    obtain ⟨k1, v1⟩ := e
    rw [List.pairwise_cons] at hs
    by_cases hk : k = k1
    · subst hk
      simp only [deleteEntries, if_pos rfl]
      exact getEntries_eq_none fun e he => (bytesLt_ne (hs.1 e he)).symm
    · simp only [deleteEntries, if_neg hk, getEntries, if_neg hk]
      exact ih hs.2

theorem mem_setEntries {l : List (Bytes × BountyValue)} {k : Bytes} {v : BountyValue}
    {e : Bytes × BountyValue} (h : e ∈ setEntries l k v) : e = (k, v) ∨ e ∈ l := by
  induction l with
  | nil =>
    simp [setEntries] at h
    exact Or.inl h
  | cons e1 rest ih =>
    obtain ⟨k1, v1⟩ := e1
    by_cases hk : k = k1
    · simp only [setEntries, if_pos hk] at h
      rcases List.mem_cons.mp h with h | h
      · exact Or.inl h
      · exact Or.inr (List.mem_cons_of_mem _ h)
    · by_cases hlt : bytesLt k k1
      · simp only [setEntries, if_neg hk, if_pos hlt] at h
        rcases List.mem_cons.mp h with h | h
        · exact Or.inl h
        · exact Or.inr h
      · simp only [setEntries, if_neg hk, if_neg hlt] at h
        rcases List.mem_cons.mp h with h | h
        · exact Or.inr (h ▸ List.mem_cons_self _ _)
        · rcases ih h with h | h
          · exact Or.inl h
          · exact Or.inr (List.mem_cons_of_mem _ h)

theorem sortedEntries_setEntries {l : List (Bytes × BountyValue)} (k : Bytes)
    (v : BountyValue) (hs : sortedEntries l) : sortedEntries (setEntries l k v) := by
  rw [sortedEntries_iff_pairwise] at hs ⊢
  induction l with
  | nil => simp [setEntries]
  | cons e1 rest ih =>
    obtain ⟨k1, v1⟩ := e1
    rw [List.pairwise_cons] at hs
    by_cases hk : k = k1
    · subst hk
      have hrw : setEntries ((k, v1) :: rest) k v = (k, v) :: rest := by
        simp [setEntries]
      rw [hrw, List.pairwise_cons]
      exact ⟨fun e he => hs.1 e he, hs.2⟩
    · by_cases hlt : bytesLt k k1
      · simp only [setEntries, if_neg hk, if_pos hlt]
        rw [List.pairwise_cons]
        refine ⟨fun e he => ?_, List.pairwise_cons.mpr hs⟩
        rcases List.mem_cons.mp he with rfl | he
        · exact hlt
        · exact bytesLt_trans hlt (hs.1 e he)
      · simp only [setEntries, if_neg hk, if_neg hlt]
        rw [List.pairwise_cons]
        refine ⟨fun e he => ?_, ih hs.2⟩
        rcases mem_setEntries he with rfl | he
        · rcases bytesLt_total hk with h | h
          · exact absurd h hlt
          · exact h
        · exact hs.1 e he

theorem deleteEntries_sublist (l : List (Bytes × BountyValue)) (k : Bytes) :
    (deleteEntries l k).Sublist l := by
  induction l with
  | nil => simp [deleteEntries]
  | cons e1 rest ih =>
    obtain ⟨k1, v1⟩ := e1
    by_cases hk : k = k1
    · simp only [deleteEntries, if_pos hk]
      exact List.sublist_cons_self _ _
    · simp only [deleteEntries, if_neg hk]
      exact ih.cons₂ _

theorem sortedEntries_deleteEntries {l : List (Bytes × BountyValue)} (k : Bytes)
    (hs : sortedEntries l) : sortedEntries (deleteEntries l k) := by
  rw [sortedEntries_iff_pairwise] at hs ⊢
  exact hs.sublist (deleteEntries_sublist l k)

theorem getEntries_some_mem {l : List (Bytes × BountyValue)} {k : Bytes}
    {v : BountyValue} (h : getEntries l k = some v) : (k, v) ∈ l := by
  induction l with
  | nil => simp [getEntries] at h
  | cons e1 rest ih =>
    obtain ⟨k1, v1⟩ := e1
    by_cases hk : k = k1
    · subst hk
      simp only [getEntries, if_true, eq_self_iff_true, if_pos] at h
      rw [Option.some.injEq] at h
      subst h
      exact List.mem_cons_self _ _
    · simp only [getEntries, if_neg hk] at h
      exact List.mem_cons_of_mem _ (ih h)

theorem sortedEntries_ext : ∀ {l1 l2 : List (Bytes × BountyValue)},
    sortedEntries l1 → sortedEntries l2 →
    (∀ k, getEntries l1 k = getEntries l2 k) → l1 = l2 := by
  intro l1
  induction l1 with
  | nil =>
    intro l2 _ hs2 hext
    cases l2 with
    | nil => rfl
    | cons e2 t2 =>
      obtain ⟨k2, v2⟩ := e2
      have h := hext k2
      simp [getEntries] at h
  | cons e1 t1 ih =>
    intro l2 hs1 hs2 hext
    obtain ⟨k1, v1⟩ := e1
    cases l2 with
    | nil =>
      have h := hext k1
      simp [getEntries] at h
    | cons e2 t2 =>
      obtain ⟨k2, v2⟩ := e2
      rw [sortedEntries_iff_pairwise, List.pairwise_cons] at hs1 hs2
      have hk : k1 = k2 := by
        by_contra hne
        have h1 : getEntries ((k1, v1) :: t1) k1 = some v1 := by simp [getEntries]
        have h2 : getEntries ((k2, v2) :: t2) k2 = some v2 := by simp [getEntries]
        have hm1 : (k1, v1) ∈ (k2, v2) :: t2 := getEntries_some_mem (hext k1 ▸ h1)
        have hm2 : (k2, v2) ∈ (k1, v1) :: t1 := getEntries_some_mem ((hext k2).symm ▸ h2)
        rcases List.mem_cons.mp hm1 with h | h
        · exact hne (congrArg Prod.fst h)
        · rcases List.mem_cons.mp hm2 with h4 | h4
          · exact hne (congrArg Prod.fst h4).symm
          · have hl1 : bytesLt k2 k1 = true := hs2.1 _ h
            have hl2 : bytesLt k1 k2 = true := hs1.1 _ h4
            rw [bytesLt_asymm hl2] at hl1
            exact Bool.false_ne_true hl1
      subst hk
      have hv : v1 = v2 := by
        have h := hext k1
        simp [getEntries] at h
        exact h
      subst hv
      have htail : ∀ k, getEntries t1 k = getEntries t2 k := by
        intro k
        by_cases hk : k = k1
        · subst hk
          have hn1 : getEntries t1 k = none :=
            getEntries_eq_none fun e he => (bytesLt_ne (hs1.1 e he)).symm
          have hn2 : getEntries t2 k = none :=
            getEntries_eq_none fun e he => (bytesLt_ne (hs2.1 e he)).symm
          rw [hn1, hn2]
        · have h := hext k
          simpa [getEntries, if_neg hk] using h
      rw [ih (sortedEntries_iff_pairwise.mpr hs1.2) (sortedEntries_iff_pairwise.mpr hs2.2) htail]

/-- Error kinds of the abort macro in lib.rs (`ExitCode::USR_*`). -/
inductive Err where
  | illegalState
  | forbidden
  | serialization
  | unhandledMessage
  deriving DecidableEq

/-- The host-held persistent context: the current state-root pointer
(`sdk::sself::root` / `set_root`) and the content-addressed block store
(`sdk::ipld::put` / the Blockstore). In the ideal-hash model a block's cid is
its byte content. -/
structure World where
  root : Option Bytes
  blocks : List Bytes
  deriving DecidableEq

/-- Per-call host message context (`sdk::message::caller`,
`sdk::message::value_received`). -/
structure Message where
  caller : Nat
  value_received : Nat
  deriving DecidableEq

/-- The actor state object (`State` in lib.rs): the trusted address and the
root cid of the bounties HAMT. In the ideal-hash model the root cid of a
flushed HAMT is its canonical entry list. -/
structure State where
  trusted_address : Address
  bounties_map : List (Bytes × BountyValue)
  deriving DecidableEq

/-- `State::load()`: read the current root from the host, fetch the block,
decode it; any failure aborts with `USR_ILLEGAL_STATE`. -/
def State.load (w : World) : Except Err State :=
  match w.root with
  | none => .error .illegalState
  | some r =>
    if r ∈ w.blocks then
      match decodeState r with
      | some (a, es) => .ok ⟨a, es⟩
      | none => .error .illegalState
    else .error .illegalState

/-- `State::save()`: serialize the state, store it as a new block, publish its
cid as the new current root; returns the cid. -/
def State.save (s : State) (w : World) : Bytes × World :=
  (encodeState s.trusted_address s.bounties_map,
   ⟨some (encodeState s.trusted_address s.bounties_map),
    encodeState s.trusted_address s.bounties_map :: w.blocks⟩)

theorem State.load_save (s : State) (w : World) :
    State.load (State.save s w).2 = .ok s := by
  simp [State.save, State.load, decodeState_encode]

/-- `ActorID` of the init actor (`INIT_ACTOR_ADDR` in lib.rs). -/
def INIT_ACTOR_ADDR : Nat := 1

/-- Method 1, `constructor`: only the init actor may call it; creates the
empty bounties HAMT, flushes it, stores its root in a fresh state record and
saves that record. -/
def constructor (trusted_address : Address) (m : Message) (w : World) :
    Except Err World :=
  if m.caller ≠ INIT_ACTOR_ADDR then .error .forbidden
  else
    let bounties : Hamt := Hamt.new
    let bounties_cid := bounties.flush
    let state : State := ⟨trusted_address, bounties_cid⟩
    .ok (state.save w).2

/-- Balance read used by methods 2, 4 and 5: `bounties.get(&key)`, defaulting
to zero when the key is absent. -/
def getAmount (h : Hamt) (k : Bytes) : Nat :=
  match h.get k with
  | some bv => bv.amount
  | none => 0

/-- Method 2, `post_bounty`: load the state and the HAMT, add the received
value to the key's balance; when the result is positive, write the entry,
flush the HAMT and save the state; otherwise leave everything untouched. -/
def post_bounty (p : PostBountyParams) (m : Message) (w : World) :
    Except Err World :=
  match State.load w with
  | .error e => .error e
  | .ok state =>
    let bounties := Hamt.load state.bounties_map
    let key := encodeKey ⟨p.piece_cid, p.address⟩
    let amount := getAmount bounties key + m.value_received
    if 0 < amount then
      let bounties2 := bounties.set key ⟨amount⟩
      let cid := bounties2.flush
      let state2 : State := ⟨state.trusted_address, cid⟩
      .ok (state2.save w).2
    else .ok w

/-- Traversal body of `list_bounties` (`bounties.for_each(...)` with its
accumulating vector): decode each stored key back into its original fields and
pair it with its amount; a key that fails to decode fails the traversal (the
`.unwrap()` in the closure). -/
def entriesToPosted : List (Bytes × BountyValue) → Option (List PostedBounty)
  | [] => some []
  | e :: es =>
    match decodeKey e.1 with
    | some k =>
      (entriesToPosted es).map fun l => PostedBounty.mk k.piece_cid k.address e.2.amount :: l
    | none => none

/-- Method 3, `list_bounties`: read-only traversal of all entries, decoding
each stored key back into its original fields. -/
def list_bounties (w : World) : Except Err (List PostedBounty) :=
  match State.load w with
  | .error e => .error e
  | .ok state =>
    let bounties := Hamt.load state.bounties_map
    match entriesToPosted bounties.entries with
    | some l => .ok l
    | none => .error .serialization

/-- Method 4, `lookup_bounty`: returns the key's current balance, zero when
absent. -/
def lookup_bounty (p : PostBountyParams) (w : World) : Except Err BountyValue :=
  match State.load w with
  | .error e => .error e
  | .ok state =>
    let bounties := Hamt.load state.bounties_map
    let key := encodeKey ⟨p.piece_cid, p.address⟩
    .ok ⟨getAmount bounties key⟩

/-- Method 5, `award_bounty`: abort with Forbidden unless the stored trusted
address equals the caller's ID-form address; when the key's balance is
positive, request a transfer of the full balance to the payout address, delete
the entry, flush and save; when it is zero, do nothing. The requested
transfers are returned as data (`fvm_sdk::send::send`). -/
def award_bounty (p : AwardBountyParams) (m : Message) (w : World) :
    Except Err (World × List (Address × Nat)) :=
  match State.load w with
  | .error e => .error e
  | .ok state =>
    let address := Address.id m.caller
    if state.trusted_address ≠ address then .error .forbidden
    else
      let bounties := Hamt.load state.bounties_map
      let key := encodeKey ⟨p.piece_cid, p.address⟩
      let amount := getAmount bounties key
      if 0 < amount then
        let bounties2 := bounties.delete key
        let cid := bounties2.flush
        let state2 : State := ⟨state.trusted_address, cid⟩
        .ok ((state2.save w).2, [(p.payout_address, amount)])
      else .ok (w, [])

/-- The state record produced by a deposit, as a function of the loaded state
(reformulation of the two branches of `post_bounty`). -/
def postState (s : State) (p : PostBountyParams) (m : Message) : State :=
  let key := encodeKey ⟨p.piece_cid, p.address⟩
  let amount := getAmount (Hamt.load s.bounties_map) key + m.value_received
  if 0 < amount then ⟨s.trusted_address, setEntries s.bounties_map key ⟨amount⟩⟩
  else s

theorem post_bounty_spec {p : PostBountyParams} {m : Message} {w : World} {s : State}
    (hload : State.load w = .ok s) :
    ∃ w2, post_bounty p m w = .ok w2 ∧ State.load w2 = .ok (postState s p m) := by
  have h1 : post_bounty p m w =
      if 0 < getAmount (Hamt.load s.bounties_map) (encodeKey ⟨p.piece_cid, p.address⟩)
          + m.value_received
      then .ok ((State.save ⟨s.trusted_address,
        setEntries s.bounties_map (encodeKey ⟨p.piece_cid, p.address⟩)
          ⟨getAmount (Hamt.load s.bounties_map) (encodeKey ⟨p.piece_cid, p.address⟩)
            + m.value_received⟩⟩ w).2)
      else .ok w := by
    simp only [post_bounty, hload, Hamt.set, Hamt.flush, Hamt.load]
  by_cases hpos : 0 < getAmount (Hamt.load s.bounties_map)
      (encodeKey ⟨p.piece_cid, p.address⟩) + m.value_received
  · rw [h1, if_pos hpos]
    refine ⟨_, rfl, ?_⟩
    rw [State.load_save]
    simp only [postState]
    rw [if_pos hpos]
  · rw [h1, if_neg hpos]
    refine ⟨w, rfl, ?_⟩
    rw [hload]
    simp only [postState]
    rw [if_neg hpos]

/-- The state record produced by a successful award, as a function of the
loaded state (reformulation of the two branches of `award_bounty`). -/
def awardState (s : State) (p : AwardBountyParams) : State :=
  let key := encodeKey ⟨p.piece_cid, p.address⟩
  if 0 < getAmount (Hamt.load s.bounties_map) key
  then ⟨s.trusted_address, deleteEntries s.bounties_map key⟩
  else s

/-- The transfers requested by a successful award. -/
def awardSends (s : State) (p : AwardBountyParams) : List (Address × Nat) :=
  let key := encodeKey ⟨p.piece_cid, p.address⟩
  if 0 < getAmount (Hamt.load s.bounties_map) key
  then [(p.payout_address, getAmount (Hamt.load s.bounties_map) key)]
  else []

theorem award_bounty_spec {p : AwardBountyParams} {m : Message} {w : World} {s : State}
    (hload : State.load w = .ok s) (htr : s.trusted_address = .id m.caller) :
    ∃ w2, award_bounty p m w = .ok (w2, awardSends s p) ∧
      State.load w2 = .ok (awardState s p) := by
  have h1 : award_bounty p m w =
      if 0 < getAmount (Hamt.load s.bounties_map) (encodeKey ⟨p.piece_cid, p.address⟩)
      then .ok ((State.save ⟨s.trusted_address,
          deleteEntries s.bounties_map (encodeKey ⟨p.piece_cid, p.address⟩)⟩ w).2,
        [(p.payout_address,
          getAmount (Hamt.load s.bounties_map) (encodeKey ⟨p.piece_cid, p.address⟩))])
      else .ok (w, []) := by
    simp only [award_bounty, hload, htr, ne_eq, not_true_eq_false, if_false,
      Hamt.delete, Hamt.flush, Hamt.load, ite_not]
  by_cases hpos : 0 < getAmount (Hamt.load s.bounties_map)
      (encodeKey ⟨p.piece_cid, p.address⟩)
  · have hsends : awardSends s p = [(p.payout_address,
        getAmount (Hamt.load s.bounties_map) (encodeKey ⟨p.piece_cid, p.address⟩))] := by
      simp only [awardSends]
      rw [if_pos hpos]
    have hstate : awardState s p = ⟨s.trusted_address,
        deleteEntries s.bounties_map (encodeKey ⟨p.piece_cid, p.address⟩)⟩ := by
      simp only [awardState]
      rw [if_pos hpos]
    refine ⟨(State.save ⟨s.trusted_address,
        deleteEntries s.bounties_map (encodeKey ⟨p.piece_cid, p.address⟩)⟩ w).2, ?_, ?_⟩
    · rw [h1, if_pos hpos, hsends]
    · rw [hstate, State.load_save]
  · have hsends : awardSends s p = [] := by
      simp only [awardSends]
      rw [if_neg hpos]
    have hstate : awardState s p = s := by
      simp only [awardState]
      rw [if_neg hpos]
    refine ⟨w, ?_, ?_⟩
    · rw [h1, if_neg hpos, hsends]
    · rw [hstate, hload]

theorem lookup_bounty_spec {p : PostBountyParams} {w : World} {s : State}
    (hload : State.load w = .ok s) :
    lookup_bounty p w =
      .ok ⟨getAmount (Hamt.load s.bounties_map) (encodeKey ⟨p.piece_cid, p.address⟩)⟩ := by
  simp only [lookup_bounty, hload]

/-- The data-model invariant on a state record: the index is in canonical
(sorted) form and every stored amount is strictly positive. -/
def goodState (s : State) : Prop :=
  sortedEntries s.bounties_map ∧ ∀ e ∈ s.bounties_map, 0 < e.2.amount

instance (s : State) : Decidable (goodState s) :=
  inferInstanceAs
    (Decidable (sortedEntries s.bounties_map ∧ ∀ e ∈ s.bounties_map, 0 < e.2.amount))

/-- Worlds whose published root points at a decodable state record satisfying
the data-model invariant. -/
def WorldInv (w : World) : Prop :=
  ∃ s, State.load w = .ok s ∧ goodState s

theorem goodState_postState {s : State} (p : PostBountyParams) (m : Message)
    (hg : goodState s) : goodState (postState s p m) := by
  unfold postState
  by_cases hpos : 0 < getAmount (Hamt.load s.bounties_map)
      (encodeKey ⟨p.piece_cid, p.address⟩) + m.value_received
  · simp only [if_pos hpos]
    refine ⟨sortedEntries_setEntries _ _ hg.1, fun e he => ?_⟩
    rcases mem_setEntries he with rfl | he
    · exact hpos
    · exact hg.2 e he
  · simp only [if_neg hpos]
    exact hg

theorem goodState_awardState {s : State} (p : AwardBountyParams)
    (hg : goodState s) : goodState (awardState s p) := by
  unfold awardState
  by_cases hpos : 0 < getAmount (Hamt.load s.bounties_map)
      (encodeKey ⟨p.piece_cid, p.address⟩)
  · simp only [if_pos hpos]
    refine ⟨sortedEntries_deleteEntries _ hg.1, fun e he => ?_⟩
    exact hg.2 e ((deleteEntries_sublist _ _).subset he)
  · simp only [if_neg hpos]
    exact hg

theorem award_bounty_forbidden {p : AwardBountyParams} {m : Message} {w : World}
    {s : State} (hload : State.load w = .ok s)
    (hne : s.trusted_address ≠ .id m.caller) :
    award_bounty p m w = .error .forbidden := by
  simp only [award_bounty, hload, ne_eq, hne, not_false_eq_true, if_true]

theorem constructor_ok {trusted : Address} {m : Message} {w w0 : World}
    (hok : constructor trusted m w = .ok w0) :
    m.caller = INIT_ACTOR_ADDR ∧ State.load w0 = .ok ⟨trusted, []⟩ := by
  by_cases hc : m.caller = INIT_ACTOR_ADDR
  · simp only [constructor, hc, ne_eq, not_true_eq_false, if_false, Hamt.new, Hamt.flush,
      Except.ok.injEq] at hok
    subst hok
    exact ⟨hc, State.load_save _ _⟩
  · simp only [constructor, ne_eq, hc, not_false_eq_true, if_true] at hok
    cases hok

/-- Balance change produced by a deposit: exactly the received value is added
to the target key and no other key moves. -/
theorem balance_postState (s : State) (p : PostBountyParams) (m : Message) (k : Bytes) :
    getAmount (Hamt.load (postState s p m).bounties_map) k =
      getAmount (Hamt.load s.bounties_map) k +
        (if encodeKey ⟨p.piece_cid, p.address⟩ = k then m.value_received else 0) := by
  simp only [postState]
  by_cases hpos : 0 < getAmount (Hamt.load s.bounties_map)
      (encodeKey ⟨p.piece_cid, p.address⟩) + m.value_received
  · rw [if_pos hpos]
    by_cases hk : encodeKey ⟨p.piece_cid, p.address⟩ = k
    · subst hk
      simp [getAmount, Hamt.get, Hamt.load, getEntries_setEntries_self]
    · have hk2 : k ≠ encodeKey ⟨p.piece_cid, p.address⟩ := fun hh => hk hh.symm
      simp [getAmount, Hamt.get, Hamt.load, getEntries_setEntries_ne _ _ _ _ hk2, hk]
  · rw [if_neg hpos]
    have h0 : getAmount (Hamt.load s.bounties_map)
        (encodeKey ⟨p.piece_cid, p.address⟩) = 0 ∧ m.value_received = 0 := by omega
    by_cases hk : encodeKey ⟨p.piece_cid, p.address⟩ = k
    · subst hk
      simp [h0.1, h0.2]
    · simp [hk]

/-- Balance change produced by an authorized award: the target key is drained
to zero and no other key moves. -/
theorem balance_awardState (s : State) (p : AwardBountyParams) (k : Bytes)
    (hs : sortedEntries s.bounties_map) :
    getAmount (Hamt.load (awardState s p).bounties_map) k =
      if encodeKey ⟨p.piece_cid, p.address⟩ = k then 0
      else getAmount (Hamt.load s.bounties_map) k := by
  simp only [awardState]
  by_cases hpos : 0 < getAmount (Hamt.load s.bounties_map)
      (encodeKey ⟨p.piece_cid, p.address⟩)
  · rw [if_pos hpos]
    by_cases hk : encodeKey ⟨p.piece_cid, p.address⟩ = k
    · subst hk
      simp [getAmount, Hamt.get, Hamt.load, getEntries_deleteEntries_self hs]
    · have hk2 : k ≠ encodeKey ⟨p.piece_cid, p.address⟩ := fun hh => hk hh.symm
      simp [getAmount, Hamt.get, Hamt.load, getEntries_deleteEntries_ne _ _ _ hk2, hk]
  · rw [if_neg hpos]
    by_cases hk : encodeKey ⟨p.piece_cid, p.address⟩ = k
    · subst hk
      simp only [if_true, eq_self_iff_true, if_pos]
      omega
    · simp [hk]

/-- One external call of a run: a deposit or an award attempt, together with
its message context. Lookups and list are read-only and irrelevant to the
ledger accounting. -/
inductive Call where
  | dep (p : PostBountyParams) (m : Message)
  | aw (p : AwardBountyParams) (m : Message)

/-- Execute one call against the world; an aborted call leaves the world
unchanged (the host's all-or-nothing guarantee). Awards additionally yield the
list of (bounty key bytes, amount paid) events. -/
def stepCall (w : World) : Call → World × List (Bytes × Nat)
  | .dep p m =>
    match post_bounty p m w with
    | .ok w2 => (w2, [])
    | .error _ => (w, [])
  | .aw p m =>
    match award_bounty p m w with
    | .ok (w2, ts) => (w2, ts.map fun t => (encodeKey ⟨p.piece_cid, p.address⟩, t.2))
    | .error _ => (w, [])

/-- Execute a sequence of calls, accumulating payout events. -/
def runCalls : World → List Call → World × List (Bytes × Nat)
  | w, [] => (w, [])
  | w, c :: cs =>
    let r := stepCall w c
    let r2 := runCalls r.1 cs
    (r2.1, r.2 ++ r2.2)

/-- Total amount paid out against one key in a list of payout events. -/
def paidTo (k : Bytes) : List (Bytes × Nat) → Nat
  | [] => 0
  | e :: l => (if e.1 = k then e.2 else 0) + paidTo k l

/-- Total value ever deposited against one key across a call sequence. -/
def depositedTo (k : Bytes) : List Call → Nat
  | [] => 0
  | .dep p m :: cs =>
    (if encodeKey ⟨p.piece_cid, p.address⟩ = k then m.value_received else 0) + depositedTo k cs
  | .aw _ _ :: cs => depositedTo k cs

/-- Current balance of a key as observable through `lookup_bounty`. -/
def balanceOf (k : Bytes) (w : World) : Nat :=
  match State.load w with
  | .ok s => getAmount (Hamt.load s.bounties_map) k
  | .error _ => 0

theorem paidTo_append (k : Bytes) (l1 l2 : List (Bytes × Nat)) :
    paidTo k (l1 ++ l2) = paidTo k l1 + paidTo k l2 := by
  induction l1 with
  | nil => simp [paidTo]
  | cons e l ih =>
    show (if e.1 = k then e.2 else 0) + paidTo k (l ++ l2) =
      (if e.1 = k then e.2 else 0) + paidTo k l + paidTo k l2
    rw [ih]
    omega

theorem stepCall_dep (k : Bytes) (w : World) (p : PostBountyParams) (m : Message)
    (hw : WorldInv w) :
    WorldInv (stepCall w (.dep p m)).1 ∧ (stepCall w (.dep p m)).2 = [] ∧
      balanceOf k (stepCall w (.dep p m)).1 = balanceOf k w +
        (if encodeKey ⟨p.piece_cid, p.address⟩ = k then m.value_received else 0) := by
  obtain ⟨s, hload, hg⟩ := hw
  obtain ⟨w2, hok, hload2⟩ := @post_bounty_spec p m w s hload
  have hstep : stepCall w (.dep p m) = (w2, []) := by
    simp only [stepCall, hok]
  rw [hstep]
  refine ⟨⟨postState s p m, hload2, goodState_postState p m hg⟩, rfl, ?_⟩
  simp only [balanceOf, hload2, hload]
  exact balance_postState s p m k

theorem stepCall_aw (k : Bytes) (w : World) (p : AwardBountyParams) (m : Message)
    (hw : WorldInv w) :
    WorldInv (stepCall w (.aw p m)).1 ∧
      balanceOf k (stepCall w (.aw p m)).1 + paidTo k (stepCall w (.aw p m)).2 =
        balanceOf k w := by
  obtain ⟨s, hload, hg⟩ := hw
  by_cases htr : s.trusted_address = .id m.caller
  · obtain ⟨w2, hok, hload2⟩ := @award_bounty_spec p m w s hload htr
    have hstep : stepCall w (.aw p m) =
        (w2, (awardSends s p).map fun t => (encodeKey ⟨p.piece_cid, p.address⟩, t.2)) := by
      simp only [stepCall, hok]
    rw [hstep]
    refine ⟨⟨awardState s p, hload2, goodState_awardState p hg⟩, ?_⟩
    simp only [balanceOf, hload2, hload]
    rw [balance_awardState s p k hg.1]
    by_cases hpos : 0 < getAmount (Hamt.load s.bounties_map)
        (encodeKey ⟨p.piece_cid, p.address⟩)
    · have hsends : awardSends s p = [(p.payout_address,
          getAmount (Hamt.load s.bounties_map) (encodeKey ⟨p.piece_cid, p.address⟩))] := by
        simp only [awardSends]
        rw [if_pos hpos]
      rw [hsends]
      by_cases hk : encodeKey ⟨p.piece_cid, p.address⟩ = k
      · simp [paidTo, hk]
      · simp [paidTo, hk]
    · have hsends : awardSends s p = [] := by
        simp only [awardSends]
        rw [if_neg hpos]
      rw [hsends]
      by_cases hk : encodeKey ⟨p.piece_cid, p.address⟩ = k
      · subst hk
        simp [paidTo]
        omega
      · simp [paidTo, hk]
  · have herr := @award_bounty_forbidden p m w s hload htr
    have hstep : stepCall w (.aw p m) = (w, []) := by
      simp only [stepCall, herr]
    rw [hstep]
    exact ⟨⟨s, hload, hg⟩, by simp [paidTo]⟩

/-- Ledger conservation over any call sequence: the final balance of a key
plus everything ever paid out against it equals its starting balance plus
everything ever deposited to it. -/
theorem runCalls_ledger (k : Bytes) : ∀ (cs : List Call) (w : World), WorldInv w →
    WorldInv (runCalls w cs).1 ∧
      balanceOf k (runCalls w cs).1 + paidTo k (runCalls w cs).2 =
        balanceOf k w + depositedTo k cs := by
  intro cs
  induction cs with
  | nil =>
    intro w hw
    exact ⟨hw, by simp [runCalls, paidTo, depositedTo]⟩
  | cons c cs ih =>
    intro w hw
    cases c with
    | dep p m =>
      obtain ⟨hw2, hnil, hbal⟩ := stepCall_dep k w p m hw
      obtain ⟨hw3, hbal2⟩ := ih _ hw2
      refine ⟨hw3, ?_⟩
      show balanceOf k (runCalls (stepCall w (.dep p m)).1 cs).1 +
        paidTo k ((stepCall w (.dep p m)).2 ++ (runCalls (stepCall w (.dep p m)).1 cs).2) =
        balanceOf k w + depositedTo k (.dep p m :: cs)
      rw [paidTo_append, hnil]
      simp only [depositedTo, paidTo]
      omega
    | aw p m =>
      obtain ⟨hw2, hbal⟩ := stepCall_aw k w p m hw
      obtain ⟨hw3, hbal2⟩ := ih _ hw2
      refine ⟨hw3, ?_⟩
      show balanceOf k (runCalls (stepCall w (.aw p m)).1 cs).1 +
        paidTo k ((stepCall w (.aw p m)).2 ++ (runCalls (stepCall w (.aw p m)).1 cs).2) =
        balanceOf k w + depositedTo k (.aw p m :: cs)
      rw [paidTo_append]
      simp only [depositedTo]
      omega

theorem getEntries_none_not_mem {l : List (Bytes × BountyValue)} {k : Bytes}
    (h : getEntries l k = none) : ∀ e ∈ l, e.1 ≠ k := by
  induction l with
  | nil => simp
  | cons e1 rest ih =>
    obtain ⟨k1, v1⟩ := e1
    by_cases hk : k = k1
    · subst hk
      simp [getEntries] at h
    · simp only [getEntries, if_neg hk] at h
      intro e he
      rcases List.mem_cons.mp he with rfl | he
      · exact fun hh => hk hh.symm
      · exact ih h e he

theorem entriesToPosted_mem : ∀ {es : List (Bytes × BountyValue)} {l : List PostedBounty},
    entriesToPosted es = some l →
    ∀ pb ∈ l, ∃ e ∈ es,
      decodeKey e.1 = some ⟨pb.piece_cid, pb.address⟩ ∧ pb.amount = e.2.amount := by
  intro es
  induction es with
  | nil =>
    intro l h pb hpb
    simp only [entriesToPosted, Option.some.injEq] at h
    subst h
    simp at hpb
  | cons e es ih =>
    intro l h pb hpb
    simp only [entriesToPosted] at h
    rcases hd : decodeKey e.1 with _ | k0
    · rw [hd] at h
      cases h
    · simp only [hd] at h
      rcases hmm : entriesToPosted es with _ | lx
      · rw [hmm] at h
        cases h
      · rw [hmm, Option.map_some', Option.some.injEq] at h
        subst h
        rcases List.mem_cons.mp hpb with rfl | hpb
        · exact ⟨e, List.mem_cons_self _ _, hd, rfl⟩
        · obtain ⟨e2, he2, hde, ham⟩ := ih hmm pb hpb
          exact ⟨e2, List.mem_cons_of_mem _ he2, hde, ham⟩

theorem list_bounties_ok_mem {w : World} {s : State} {l : List PostedBounty}
    (hload : State.load w = .ok s) (hlist : list_bounties w = .ok l) :
    ∀ pb ∈ l, ∃ e ∈ s.bounties_map,
      decodeKey e.1 = some ⟨pb.piece_cid, pb.address⟩ ∧ pb.amount = e.2.amount := by
  simp only [list_bounties, hload, Hamt.load] at hlist
  rcases hmm : entriesToPosted s.bounties_map with _ | lx
  · rw [hmm] at hlist
    cases hlist
  · rw [hmm] at hlist
    rw [Except.ok.injEq] at hlist
    subst hlist
    exact entriesToPosted_mem hmm

theorem list_bounties_two {w : World} {tr : Address} {kA kB : BountyKey} {a b : Nat}
    (hload : State.load w = .ok ⟨tr, [(encodeKey kA, ⟨a⟩), (encodeKey kB, ⟨b⟩)]⟩) :
    list_bounties w = .ok [⟨kA.piece_cid, kA.address, a⟩, ⟨kB.piece_cid, kB.address, b⟩] := by
  simp only [list_bounties, hload, Hamt.load]
  simp [entriesToPosted, decodeKey_encode]

/-- Concrete sample trusted authority used by witness theorems. -/
def exTrusted : Address := .id 7

/-- Concrete sample initial state record. -/
def exState0 : State := ⟨exTrusted, []⟩

/-- Concrete world produced by the constructor from an empty host. -/
def exWorld0 : World := (State.save exState0 ⟨none, []⟩).2

/-- Concrete sample bounty key. -/
def exKey1 : BountyKey := ⟨[10], .id 2⟩

/-- Concrete second sample bounty key, distinct from the first. -/
def exKey2 : BountyKey := ⟨[11], .id 3⟩

/-- Deposit/lookup parameters naming the first sample key. -/
def exPost1 : PostBountyParams := ⟨[10], .id 2⟩

/-- Deposit/lookup parameters naming the second sample key. -/
def exPost2 : PostBountyParams := ⟨[11], .id 3⟩

/-- Award parameters naming the first sample key, paying out to address 9. -/
def exAward1 : AwardBountyParams := ⟨[10], .id 2, .id 9⟩

/-- World after depositing 3 on the first sample key in `exWorld0`. -/
def exW1 : World := (State.save ⟨exTrusted, [(encodeKey exKey1, ⟨3⟩)]⟩ exWorld0).2

/-- World after the trusted authority awards the first sample key in `exW1`. -/
def exW2 : World := (State.save ⟨exTrusted, []⟩ exW1).2

/-- A non-ID-form trusted authority. -/
def exKeyAddr : Address := .key [1, 2, 3]

/-- World whose stored trusted authority is not an ID-form address. -/
def exWorldK : World := (State.save ⟨exKeyAddr, []⟩ ⟨none, []⟩).2


/-- Claim C2: deposits are additive per key — from any starting balance `b`,
depositing `v1` and then `v2` on the same key makes a subsequent lookup return
`b + v1 + v2`. -/
theorem bounty_deposits_additive (w : World) (s : State) (p : PostBountyParams)
    (m1 m2 : Message) (b : Nat)
    (hload : State.load w = .ok s)
    (hbal : getAmount (Hamt.load s.bounties_map) (encodeKey ⟨p.piece_cid, p.address⟩) = b) :
    ∃ w1 w2, post_bounty p m1 w = .ok w1 ∧ post_bounty p m2 w1 = .ok w2 ∧
      lookup_bounty p w2 = .ok ⟨b + m1.value_received + m2.value_received⟩ := by
  obtain ⟨w1, hok1, hload1⟩ := @post_bounty_spec p m1 w s hload
  obtain ⟨w2, hok2, hload2⟩ := @post_bounty_spec p m2 w1 _ hload1
  refine ⟨w1, w2, hok1, hok2, ?_⟩
  rw [@lookup_bounty_spec p w2 _ hload2]
  have hb1 := balance_postState s p m1 (encodeKey ⟨p.piece_cid, p.address⟩)
  have hb2 := balance_postState (postState s p m1) p m2 (encodeKey ⟨p.piece_cid, p.address⟩)
  rw [if_pos rfl] at hb1 hb2
  rw [hb2, hb1, hbal]

/-- Spot check of C2: from the freshly constructed world, depositing 5 then 7
on one key makes lookup return 12. -/
theorem bounty_deposits_additive_check :
    ∃ w1 w2, post_bounty exPost1 ⟨2, 5⟩ exWorld0 = .ok w1 ∧
      post_bounty exPost1 ⟨2, 7⟩ w1 = .ok w2 ∧
      lookup_bounty exPost1 w2 = .ok ⟨0 + 5 + 7⟩ :=
  bounty_deposits_additive exWorld0 exState0 exPost1 ⟨2, 5⟩ ⟨2, 7⟩ 0 rfl rfl

/-- Claim C3: an award whose caller is not the stored trusted authority aborts
with Forbidden; no world and no transfers are produced, so the published state
and every subsequent lookup are unchanged. -/
theorem award_nontrusted_forbidden (w : World) (s : State)
    (p : AwardBountyParams) (m : Message)
    (hload : State.load w = .ok s)
    (hne : s.trusted_address ≠ .id m.caller) :
    award_bounty p m w = .error .forbidden :=
  award_bounty_forbidden hload hne

/-- Spot check of C3: caller 8 against stored trusted authority 7 is rejected. -/
theorem award_nontrusted_forbidden_check :
    award_bounty exAward1 ⟨8, 0⟩ exWorld0 = .error .forbidden :=
  award_nontrusted_forbidden exWorld0 exState0 exAward1 ⟨8, 0⟩ rfl (by decide)

/-- Claim C4: a successful award on a positively funded key requests a
transfer of exactly the full balance to the payout address, publishes a state
whose index no longer holds the key, and a subsequent lookup returns zero. -/
theorem trusted_award_pays_and_deletes (w : World) (s : State)
    (p : AwardBountyParams) (m : Message) (a : Nat)
    (hload : State.load w = .ok s) (hg : goodState s)
    (htr : s.trusted_address = .id m.caller)
    (hbal : getAmount (Hamt.load s.bounties_map) (encodeKey ⟨p.piece_cid, p.address⟩) = a)
    (hpos : 0 < a) :
    ∃ w2, award_bounty p m w = .ok (w2, [(p.payout_address, a)]) ∧
      State.load w2 = .ok ⟨s.trusted_address,
        deleteEntries s.bounties_map (encodeKey ⟨p.piece_cid, p.address⟩)⟩ ∧
      lookup_bounty ⟨p.piece_cid, p.address⟩ w2 = .ok ⟨0⟩ := by
  obtain ⟨w2, hok, hload2⟩ := @award_bounty_spec p m w s hload htr
  have hpos2 : 0 < getAmount (Hamt.load s.bounties_map)
      (encodeKey ⟨p.piece_cid, p.address⟩) := hbal ▸ hpos
  have hsends : awardSends s p = [(p.payout_address, a)] := by
    simp only [awardSends]
    rw [if_pos hpos2, hbal]
  have hstate : awardState s p = ⟨s.trusted_address,
      deleteEntries s.bounties_map (encodeKey ⟨p.piece_cid, p.address⟩)⟩ := by
    simp only [awardState]
    rw [if_pos hpos2]
  rw [hstate] at hload2
  refine ⟨w2, ?_, hload2, ?_⟩
  · rw [hok, hsends]
  · rw [@lookup_bounty_spec ⟨p.piece_cid, p.address⟩ w2 _ hload2]
    have hz : getAmount
        (Hamt.load (deleteEntries s.bounties_map (encodeKey ⟨p.piece_cid, p.address⟩)))
        (encodeKey ⟨p.piece_cid, p.address⟩) = 0 := by
      simp [getAmount, Hamt.get, Hamt.load, getEntries_deleteEntries_self hg.1]
    rw [hz]

/-- Spot check of C4: awarding the key funded with 3 pays exactly 3 to the
payout address and empties the index. -/
theorem trusted_award_pays_and_deletes_check :
    ∃ w2, award_bounty exAward1 ⟨7, 0⟩ exW1 = .ok (w2, [(Address.id 9, 3)]) ∧
      State.load w2 = .ok ⟨exTrusted, deleteEntries [(encodeKey exKey1, ⟨3⟩)]
        (encodeKey ⟨exAward1.piece_cid, exAward1.address⟩)⟩ ∧
      lookup_bounty ⟨exAward1.piece_cid, exAward1.address⟩ w2 = .ok ⟨0⟩ :=
  trusted_award_pays_and_deletes exW1 ⟨exTrusted, [(encodeKey exKey1, ⟨3⟩)]⟩
    exAward1 ⟨7, 0⟩ 3 rfl ⟨rfl, by simp⟩ rfl rfl (by decide)

/-- Claim C5: an award on a key with balance zero — in particular the second
of two sequential awards after the first drained the balance — is a no-op:
no transfer, no error, no state change; and across any call sequence from a
freshly constructed world, the total paid out against a key never exceeds the
total deposited to it. -/
theorem award_zero_noop_no_double_payout :
    (∀ (w : World) (s : State) (p : AwardBountyParams) (m : Message),
      State.load w = .ok s → s.trusted_address = .id m.caller →
      getAmount (Hamt.load s.bounties_map) (encodeKey ⟨p.piece_cid, p.address⟩) = 0 →
      award_bounty p m w = .ok (w, [])) ∧
    (∀ (trusted : Address) (m : Message) (w w0 : World) (cs : List Call) (k : Bytes),
      constructor trusted m w = .ok w0 →
      paidTo k (runCalls w0 cs).2 ≤ depositedTo k cs) := by
  constructor
  · intro w s p m hload htr hzero
    simp only [award_bounty, hload, htr, ne_eq, not_true_eq_false, if_false, hzero]
    simp
  · intro trusted m w w0 cs k hctor
    obtain ⟨hc, hload0⟩ := constructor_ok hctor
    have hinv : WorldInv w0 := ⟨⟨trusted, []⟩, hload0, rfl, by simp⟩
    obtain ⟨hinv2, hbal⟩ := runCalls_ledger k cs w0 hinv
    have hb0 : balanceOf k w0 = 0 := by
      simp [balanceOf, hload0, getAmount, Hamt.get, Hamt.load, getEntries]
    omega

/-- Spot check of C5: after deposit 3 and a draining award, a second award on
the same key is a no-op; and over the whole deposit-award-award run the key
was paid 3 and deposited 3. -/
theorem award_zero_noop_no_double_payout_check :
    award_bounty exAward1 ⟨7, 0⟩ exW2 = .ok (exW2, []) ∧
      paidTo (encodeKey exKey1)
          (runCalls exWorld0
            [Call.dep exPost1 ⟨2, 3⟩, Call.aw exAward1 ⟨7, 0⟩, Call.aw exAward1 ⟨7, 0⟩]).2 ≤
        depositedTo (encodeKey exKey1)
          [Call.dep exPost1 ⟨2, 3⟩, Call.aw exAward1 ⟨7, 0⟩, Call.aw exAward1 ⟨7, 0⟩] :=
  ⟨award_zero_noop_no_double_payout.1 exW2 ⟨exTrusted, []⟩ exAward1 ⟨7, 0⟩ rfl rfl rfl,
   award_zero_noop_no_double_payout.2 exTrusted ⟨1, 0⟩ ⟨none, []⟩ exWorld0
     [Call.dep exPost1 ⟨2, 3⟩, Call.aw exAward1 ⟨7, 0⟩, Call.aw exAward1 ⟨7, 0⟩]
     (encodeKey exKey1) rfl⟩

/-- Claim C6: a deposit of zero received value on a key with balance zero is
a true no-op — the returned world is the input world itself, so no entry is
written, nothing is flushed and the published root is unchanged. -/
theorem zero_deposit_noop (w : World) (s : State) (p : PostBountyParams)
    (m : Message)
    (hload : State.load w = .ok s)
    (hv : m.value_received = 0)
    (hzero : getAmount (Hamt.load s.bounties_map) (encodeKey ⟨p.piece_cid, p.address⟩) = 0) :
    post_bounty p m w = .ok w := by
  simp [post_bounty, hload, hzero, hv]

/-- Spot check of C6: depositing 0 on an absent key leaves the world equal to
what it was. -/
theorem zero_deposit_noop_check :
    post_bounty exPost2 ⟨2, 0⟩ exWorld0 = .ok exWorld0 :=
  zero_deposit_noop exWorld0 exState0 exPost2 ⟨2, 0⟩ rfl rfl rfl

/-- Claim C7: flushing the Persistent Index is deterministic in its content —
two canonical-form indices holding the same (key, value) set (the same point
lookups) flush to the same root ContentID, independent of the operation
sequence that produced them. -/
theorem hamt_flush_deterministic (h1 h2 : Hamt)
    (hs1 : sortedEntries h1.entries) (hs2 : sortedEntries h2.entries)
    (hext : ∀ k, h1.get k = h2.get k) : h1.flush = h2.flush :=
  sortedEntries_ext hs1 hs2 hext

/-- Spot check of C7: inserting A then B equals inserting B then A, and equals
inserting A, B, C then deleting C. -/
theorem hamt_flush_deterministic_check :
    ((Hamt.new.set [0] ⟨1⟩).set [1] ⟨2⟩).flush =
        ((Hamt.new.set [1] ⟨2⟩).set [0] ⟨1⟩).flush ∧
      ((Hamt.new.set [0] ⟨1⟩).set [1] ⟨2⟩).flush =
        ((((Hamt.new.set [0] ⟨1⟩).set [1] ⟨2⟩).set [2] ⟨3⟩).delete [2]).flush :=
  ⟨hamt_flush_deterministic _ _ rfl rfl (fun _ => rfl),
   hamt_flush_deterministic _ _ rfl rfl (fun _ => rfl)⟩

/-- Claim C9: saving a state record and loading it back returns a record equal
in all fields to the one saved. -/
theorem state_save_load_roundtrip (s : State) (w : World) :
    State.load (State.save s w).2 = .ok s :=
  State.load_save s w

/-- Claim C10: the award authorization compares the stored trusted address
against the caller's ID-form address, while the constructor stores whatever
address form was supplied; hence if the stored trusted address is not ID-form,
every award aborts with Forbidden and no bounty can ever be paid out. -/
theorem nonid_trusted_award_always_forbidden :
    (∀ (trusted : Address) (m : Message) (w w0 : World),
      constructor trusted m w = .ok w0 → State.load w0 = .ok ⟨trusted, []⟩) ∧
    (∀ (w : World) (s : State), State.load w = .ok s →
      (∀ n : Nat, s.trusted_address ≠ .id n) →
      ∀ (p : AwardBountyParams) (m : Message),
        award_bounty p m w = .error .forbidden) := by
  constructor
  · intro trusted m w w0 hok
    exact (constructor_ok hok).2
  · intro w s hload hnid p m
    exact award_bounty_forbidden hload (hnid m.caller)

/-- Spot check of C10: a world constructed with a keyed (non-ID) trusted
address stores it as supplied, and an award attempt by any caller (here 7) is
Forbidden. -/
theorem nonid_trusted_award_always_forbidden_check :
    State.load exWorldK = .ok ⟨exKeyAddr, []⟩ ∧
      award_bounty exAward1 ⟨7, 0⟩ exWorldK = .error .forbidden :=
  ⟨nonid_trusted_award_always_forbidden.1 exKeyAddr ⟨1, 0⟩ ⟨none, []⟩ exWorldK rfl,
   nonid_trusted_award_always_forbidden.2 exWorldK ⟨exKeyAddr, []⟩ rfl
     (fun _ h => Address.noConfusion h) exAward1 ⟨7, 0⟩⟩

/-- Claim C8: after deposits of nonzero amounts to two distinct keys starting
from an empty index, `list` returns exactly the two entries, each carrying the
key's original fields decoded back from the stored key bytes together with its
accumulated amount, in a deterministic order (here stated up to permutation). -/
theorem list_two_deposits_complete (w : World) (s : State) (k1 k2 : BountyKey)
    (m1 m2 : Message)
    (hload : State.load w = .ok s)
    (hempty : s.bounties_map = [])
    (hne : k1 ≠ k2)
    (hv1 : 0 < m1.value_received) (hv2 : 0 < m2.value_received) :
    ∃ w1 w2 l, post_bounty ⟨k1.piece_cid, k1.address⟩ m1 w = .ok w1 ∧
      post_bounty ⟨k2.piece_cid, k2.address⟩ m2 w1 = .ok w2 ∧
      list_bounties w2 = .ok l ∧
      l.Perm [⟨k1.piece_cid, k1.address, m1.value_received⟩,
              ⟨k2.piece_cid, k2.address, m2.value_received⟩] := by
  have hpk1 : (⟨k1.piece_cid, k1.address⟩ : BountyKey) = k1 := rfl
  have hpk2 : (⟨k2.piece_cid, k2.address⟩ : BountyKey) = k2 := rfl
  have hkne : encodeKey k2 ≠ encodeKey k1 := fun h => hne (encodeKey_inj h).symm
  obtain ⟨w1, hok1, hload1⟩ := @post_bounty_spec ⟨k1.piece_cid, k1.address⟩ m1 w s hload
  have hs1 : postState s ⟨k1.piece_cid, k1.address⟩ m1 =
      ⟨s.trusted_address, [(encodeKey k1, ⟨m1.value_received⟩)]⟩ := by
    simp [postState, hempty, getAmount, Hamt.get, Hamt.load, getEntries, setEntries,
      hv1, hpk1]
  rw [hs1] at hload1
  obtain ⟨w2, hok2, hload2⟩ := @post_bounty_spec ⟨k2.piece_cid, k2.address⟩ m2 w1 _ hload1
  have hs2 : postState ⟨s.trusted_address, [(encodeKey k1, ⟨m1.value_received⟩)]⟩
      ⟨k2.piece_cid, k2.address⟩ m2 =
      ⟨s.trusted_address, setEntries [(encodeKey k1, ⟨m1.value_received⟩)]
        (encodeKey k2) ⟨m2.value_received⟩⟩ := by
    simp [postState, getAmount, Hamt.get, Hamt.load, getEntries, hkne, hv2, hpk2]
  rw [hs2] at hload2
  by_cases hlt : bytesLt (encodeKey k2) (encodeKey k1) = true
  · have hset : setEntries [(encodeKey k1, BountyValue.mk m1.value_received)]
        (encodeKey k2) ⟨m2.value_received⟩ =
        [(encodeKey k2, ⟨m2.value_received⟩), (encodeKey k1, ⟨m1.value_received⟩)] := by
      simp [setEntries, hkne, hlt]
    rw [hset] at hload2
    have hlist := @list_bounties_two w2 s.trusted_address k2 k1
      m2.value_received m1.value_received hload2
    exact ⟨w1, w2, _, hok1, hok2, hlist, List.Perm.swap _ _ _⟩
  · have hset : setEntries [(encodeKey k1, BountyValue.mk m1.value_received)]
        (encodeKey k2) ⟨m2.value_received⟩ =
        [(encodeKey k1, ⟨m1.value_received⟩), (encodeKey k2, ⟨m2.value_received⟩)] := by
      simp [setEntries, hkne, hlt]
    rw [hset] at hload2
    have hlist := @list_bounties_two w2 s.trusted_address k1 k2
      m1.value_received m2.value_received hload2
    exact ⟨w1, w2, _, hok1, hok2, hlist, List.Perm.refl _⟩

/-- Spot check of C8: depositing 5 and 7 on the two sample keys lists exactly
those two bounties with their amounts. -/
theorem list_two_deposits_complete_check :
    ∃ w1 w2 l, post_bounty ⟨exKey1.piece_cid, exKey1.address⟩ ⟨2, 5⟩ exWorld0 = .ok w1 ∧
      post_bounty ⟨exKey2.piece_cid, exKey2.address⟩ ⟨3, 7⟩ w1 = .ok w2 ∧
      list_bounties w2 = .ok l ∧
      l.Perm [⟨exKey1.piece_cid, exKey1.address, 5⟩, ⟨exKey2.piece_cid, exKey2.address, 7⟩] :=
  list_two_deposits_complete exWorld0 exState0 exKey1 exKey2 ⟨2, 5⟩ ⟨3, 7⟩
    rfl rfl (by decide) (by decide) (by decide)

/-- Claim C1: every successful operation preserves the invariant that all
persisted amounts are strictly positive (a drain-to-zero deletes the entry
rather than storing zero); consequently after a deposit of 3 and a successful
award on the same key, lookup returns 0 and the key is absent from list. -/
theorem index_amounts_always_positive :
    (∀ (trusted : Address) (m : Message) (w w0 : World),
      constructor trusted m w = .ok w0 → WorldInv w0) ∧
    (∀ (p : PostBountyParams) (m : Message) (w w2 : World),
      WorldInv w → post_bounty p m w = .ok w2 → WorldInv w2) ∧
    (∀ (p : AwardBountyParams) (m : Message) (w : World)
      (r : World × List (Address × Nat)),
      WorldInv w → award_bounty p m w = .ok r → WorldInv r.1) ∧
    (∀ (w : World) (kp : PostBountyParams) (payout : Address) (m1 m2 : Message)
      (w1 : World) (r : World × List (Address × Nat)),
      WorldInv w → m1.value_received = 3 →
      post_bounty kp m1 w = .ok w1 →
      award_bounty ⟨kp.piece_cid, kp.address, payout⟩ m2 w1 = .ok r →
      lookup_bounty kp r.1 = .ok ⟨0⟩ ∧
        ∀ l, list_bounties r.1 = .ok l →
          ∀ pb ∈ l, ¬(pb.piece_cid = kp.piece_cid ∧ pb.address = kp.address)) := by
  refine ⟨?_, ?_, ?_, ?_⟩
  · intro trusted m w w0 hok
    exact ⟨⟨trusted, []⟩, (constructor_ok hok).2, rfl, by simp⟩
  · rintro p m w w2 ⟨s, hload, hg⟩ hok
    obtain ⟨w2h, hokh, hload2⟩ := @post_bounty_spec p m w s hload
    rw [hok] at hokh
    injection hokh with h
    subst h
    exact ⟨postState s p m, hload2, goodState_postState p m hg⟩
  · rintro p m w r ⟨s, hload, hg⟩ hok
    by_cases htr : s.trusted_address = .id m.caller
    · obtain ⟨w2h, hokh, hload2⟩ := @award_bounty_spec p m w s hload htr
      rw [hok] at hokh
      injection hokh with h
      subst h
      exact ⟨awardState s p, hload2, goodState_awardState p hg⟩
    · have herr := @award_bounty_forbidden p m w s hload htr
      rw [herr] at hok
      cases hok
  · rintro w kp payout m1 m2 w1 r ⟨s, hload, hg⟩ hv3 hok1 hok2
    obtain ⟨w1h, hok1h, hload1⟩ := @post_bounty_spec kp m1 w s hload
    rw [hok1] at hok1h
    injection hok1h with h
    subst h
    have hg1 : goodState (postState s kp m1) := goodState_postState kp m1 hg
    have hbal1 : getAmount (Hamt.load (postState s kp m1).bounties_map)
        (encodeKey ⟨kp.piece_cid, kp.address⟩) =
        getAmount (Hamt.load s.bounties_map) (encodeKey ⟨kp.piece_cid, kp.address⟩) + 3 := by
      have hb := balance_postState s kp m1 (encodeKey ⟨kp.piece_cid, kp.address⟩)
      rw [if_pos rfl, hv3] at hb
      exact hb
    have hpos1 : 0 < getAmount (Hamt.load (postState s kp m1).bounties_map)
        (encodeKey ⟨kp.piece_cid, kp.address⟩) := by omega
    by_cases htr : (postState s kp m1).trusted_address = .id m2.caller
    · obtain ⟨w2h, hok2h, hload2⟩ :=
        @award_bounty_spec ⟨kp.piece_cid, kp.address, payout⟩ m2 w1 _ hload1 htr
      rw [hok2] at hok2h
      injection hok2h with h2
      subst h2
      have hstate : awardState (postState s kp m1) ⟨kp.piece_cid, kp.address, payout⟩ =
          ⟨(postState s kp m1).trusted_address,
            deleteEntries (postState s kp m1).bounties_map
              (encodeKey ⟨kp.piece_cid, kp.address⟩)⟩ := by
        simp only [awardState]
        rw [if_pos hpos1]
      rw [hstate] at hload2
      constructor
      · rw [@lookup_bounty_spec kp _ _ hload2]
        have hz : getAmount (Hamt.load (deleteEntries (postState s kp m1).bounties_map
            (encodeKey ⟨kp.piece_cid, kp.address⟩)))
            (encodeKey ⟨kp.piece_cid, kp.address⟩) = 0 := by
          simp [getAmount, Hamt.get, Hamt.load, getEntries_deleteEntries_self hg1.1]
        rw [hz]
      · intro l hlist pb hpb
        rintro ⟨hpc, haddr⟩
        obtain ⟨e, he, hde, ham⟩ := list_bounties_ok_mem hload2 hlist pb hpb
        have he1 : e.1 = encodeKey ⟨kp.piece_cid, kp.address⟩ := by
          have hd := decodeKey_eq hde
          rw [hd, hpc, haddr]
        have hnone : getEntries (deleteEntries (postState s kp m1).bounties_map
            (encodeKey ⟨kp.piece_cid, kp.address⟩))
            (encodeKey ⟨kp.piece_cid, kp.address⟩) = none :=
          getEntries_deleteEntries_self hg1.1
        exact getEntries_none_not_mem hnone e he he1
    · have herr := @award_bounty_forbidden ⟨kp.piece_cid, kp.address, payout⟩ m2 w1 _
        hload1 htr
      rw [herr] at hok2
      cases hok2

/-- Spot check of C1: after depositing 3 on the sample key and the trusted
authority awarding it, lookup returns 0 and the key is absent from list. -/
theorem index_amounts_always_positive_check :
    lookup_bounty exPost1 (exW2, [(Address.id 9, 3)]).1 = .ok ⟨0⟩ ∧
      ∀ l, list_bounties (exW2, [(Address.id 9, 3)]).1 = .ok l →
        ∀ pb ∈ l, ¬(pb.piece_cid = exPost1.piece_cid ∧ pb.address = exPost1.address) :=
  index_amounts_always_positive.2.2.2 exWorld0 exPost1 (Address.id 9) ⟨2, 3⟩ ⟨7, 0⟩ exW1
    (exW2, [(Address.id 9, 3)]) ⟨exState0, rfl, rfl, by simp [exState0]⟩ rfl rfl rfl
